import Mathlib

/-!
Verification development for the knitfab-api-types value library: the Tag /
Annotation / Change domain model, the unordered (multiset) equality engine, and
the run/plan detail equality functions, embedded shallowly from the Go source.

Strings are embedded as lists of characters (`Str`); Go's `(err, mutation)`
pattern on pointer receivers is embedded as explicit state passing
(`Option TErr × Tag`); fallible pure decoders return `Except TErr _`.
-/

namespace Knit

/-- Character strings, embedded as lists of characters. -/
abbrev Str := List Char

/-- Whitespace recognizer backing `strings.TrimSpace` (ASCII space classes;
the Go original also trims rare non-ASCII Unicode spaces, which no system
key or enumerated value contains). -/
def isSpc (c : Char) : Bool :=
  c == ' ' || c == '\t' || c == '\n' || c == '\x0b' || c == '\x0c' || c == '\r'

/-- `strings.TrimSpace`: drop whitespace from both ends. -/
def trimSpace (s : Str) : Str :=
  ((s.dropWhile isSpc).reverse.dropWhile isSpc).reverse

/-- `strings.Cut(s, sep)` for a one-character separator: split at the first
occurrence, `none` when the separator does not occur. -/
def cutOn (c : Char) : Str → Option (Str × Str)
  | [] => none
  | d :: ds =>
    if d = c then some ([], ds)
    else
      match cutOn c ds with
      | none => none
      | some (k, v) => some (d :: k, v)

/-- `strings.HasPrefix(s, p)` (arguments: the candidate p first, then s). -/
def hasPfx : Str → Str → Bool
  | [], _ => true
  | _ :: _, [] => false
  | p :: ps, c :: cs => p == c && hasPfx ps cs

/-- Strict lexicographic order on strings by code point, as
`strings.Compare` orders byte strings (they agree on the ASCII data the
library compares). -/
def strLt : Str → Str → Bool
  | [], [] => false
  | [], _ :: _ => true
  | _ :: _, [] => false
  | c :: cs, d :: ds => if c = d then strLt cs ds else decide (c < d)

/-- Reflexive lexicographic order on strings: `strLt` or equal. -/
def strLe : Str → Str → Bool
  | [], _ => true
  | _ :: _, [] => false
  | c :: cs, d :: ds => if c = d then strLe cs ds else decide (c < d)

/-- Modelled from the spec: the repository's `misc/rfctime` package is not
among the given source files. Per spec section 4.2 a timestamp string is
parsed against the RFC3339 datetime profile (`YYYY-MM-DDThh:mm:ss`, optional
fractional seconds, then an offset that is `Z` or `±hh:mm`), and two parsed
timestamps are equivalent iff they denote the same instant. The parsed value
is therefore embedded as the denoted instant itself: nanoseconds from the
epoch 1970-01-01T00:00:00Z, so `Equiv` is plain equality of instants. -/
abbrev Instant := Int

/-- Value of a decimal digit character, `none` for a non-digit. -/
def digitVal (c : Char) : Option Nat :=
  if '0' ≤ c ∧ c ≤ '9' then some (c.toNat - '0'.toNat) else none

/-- Two-digit decimal number. -/
def num2 (a b : Char) : Option Nat := do
  pure ((← digitVal a) * 10 + (← digitVal b))

/-- Four-digit decimal number. -/
def num4 (a b c d : Char) : Option Nat := do
  pure (((← digitVal a) * 10 + (← digitVal b)) * 100 + ((← digitVal c) * 10 + (← digitVal d)))

/-- Leap year of the proleptic Gregorian calendar. -/
def isLeap (y : Nat) : Bool :=
  y % 4 = 0 && (y % 100 ≠ 0 || y % 400 = 0)

/-- Days of a month of the proleptic Gregorian calendar. -/
def daysInMonth (y m : Nat) : Nat :=
  match m with
  | 1 => 31 | 2 => if isLeap y then 29 else 28 | 3 => 31 | 4 => 30 | 5 => 31
  | 6 => 30 | 7 => 31 | 8 => 31 | 9 => 30 | 10 => 31 | 11 => 30 | 12 => 31
  | _ => 0

/-- Days from the epoch 1970-01-01 of the Gregorian date `y-m-d`
(the standard days-from-civil computation). -/
def daysFromCivil (y m d : Nat) : Int :=
  let yy : Int := if m ≤ 2 then (y : Int) - 1 else (y : Int)
  let era : Int := Int.fdiv yy 400
  let yoe : Int := yy - 400 * era
  let mp : Nat := if m ≤ 2 then m + 9 else m - 3
  let doy : Nat := (153 * mp + 2) / 5 + (d - 1)
  let doe : Int := yoe * 365 + Int.fdiv yoe 4 - Int.fdiv yoe 100 + (doy : Int)
  era * 146097 + doe - 719468

/-- Fractional seconds: when the remainder starts with `'.'` it must carry at
least one digit; the digits are read to nanosecond precision (further digits
are truncated). Returns the nanoseconds and the unconsumed remainder. -/
def parseFracNanos : Str → Option (Nat × Str)
  | '.' :: rest =>
    let ds := rest.takeWhile (fun c => decide ('0' ≤ c ∧ c ≤ '9'))
    let rest' := rest.dropWhile (fun c => decide ('0' ≤ c ∧ c ≤ '9'))
    if ds = [] then none
    else
      let ds9 := ds.take 9
      some ((ds9.foldl (fun acc c => acc * 10 + (c.toNat - '0'.toNat)) 0) * 10 ^ (9 - ds9.length), rest')
  | rest => some (0, rest)

/-- Timezone offset: `Z`, or `±hh:mm`, as seconds east of UTC. -/
def parseOffset : Str → Option Int
  | ['Z'] => some 0
  | ['+', h1, h2, ':', m1, m2] => do
    let hh ← num2 h1 h2
    let mm ← num2 m1 m2
    if hh ≤ 23 ∧ mm ≤ 59 then some ((hh : Int) * 3600 + (mm : Int) * 60) else none
  | ['-', h1, h2, ':', m1, m2] => do
    let hh ← num2 h1 h2
    let mm ← num2 m1 m2
    if hh ≤ 23 ∧ mm ≤ 59 then some (-((hh : Int) * 3600 + (mm : Int) * 60)) else none
  | _ => none

/-- Modelled from the spec: `rfctime.ParseRFC3339DateTime` (package
`misc/rfctime`, not among the given files). Parses
`YYYY-MM-DDThh:mm:ss[.fff…](Z|±hh:mm)` with range-checked fields and returns
the denoted instant; `none` is the explicit parse failure. -/
def parseRFC3339 (s : Str) : Option Instant :=
  match s with
  | y1 :: y2 :: y3 :: y4 :: '-' :: m1 :: m2 :: '-' :: d1 :: d2 :: 'T' ::
      h1 :: h2 :: ':' :: n1 :: n2 :: ':' :: s1 :: s2 :: rest => do
    let y ← num4 y1 y2 y3 y4
    let mo ← num2 m1 m2
    let da ← num2 d1 d2
    let hh ← num2 h1 h2
    let mi ← num2 n1 n2
    let ss ← num2 s1 s2
    let (ns, rest') ← parseFracNanos rest
    let off ← parseOffset rest'
    if 1 ≤ mo ∧ mo ≤ 12 ∧ 1 ≤ da ∧ da ≤ daysInMonth y mo ∧ hh ≤ 23 ∧ mi ≤ 59 ∧ ss ≤ 59 then
      some ((daysFromCivil y mo da * 86400 + (hh : Int) * 3600 + (mi : Int) * 60 + (ss : Int) - off)
              * 1000000000 + (ns : Int))
    else none
  | _ => none

/-- `tags.Tag`: a key/value pair (fields `Key`, `Value`). -/
structure Tag where
  key : Str
  value : Str
deriving DecidableEq

/-- `tags.SystemTagPrefix`. -/
def systemTagPfx : Str := "knit#".data

/-- `tags.KeyKnitTimestamp`. -/
def keyKnitTimestamp : Str := "knit#timestamp".data

/-- `tags.KeyKnitTransient`. -/
def keyKnitTransient : Str := "knit#transient".data

/-- `tags.ValueKnitTransientProcessing`. -/
def valueKnitTransientProcessing : Str := "processing".data

/-- `tags.ValueKnitTransientFailed`. -/
def valueKnitTransientFailed : Str := "failed".data

/-- `tags.ValueKnitTransientPurged`. -/
def valueKnitTransientPurged : Str := "purged".data

/-- `Tag.String()`: the canonical `key:value` form. -/
def tagString (t : Tag) : Str := t.key ++ ':' :: t.value

/-- `Tag.Equal`: keys must be identical; values compare as strings except
under the timestamp system key, where both sides are reparsed and compared
as instants (both parses must succeed). -/
def tagEqual (a b : Tag) : Bool :=
  if a.key ≠ b.key then false
  else if a.key ≠ keyKnitTimestamp then a.value == b.value
  else
    match parseRFC3339 a.value, parseRFC3339 b.value with
    | some vA, some vB => vA == vB
    | _, _ => false

/-- The error taxonomy of the tag/annotation decoders, one constructor per
distinct failure the Go code reports. -/
inductive TErr where
  /-- `tag parse error: … :no key` (no `:` in the compact form). -/
  | noKey
  /-- `tag parse error: … is not timestamp`. -/
  | badTimestamp
  /-- `tag parse error: "knit#transient" should be one of …`. -/
  | badTransient
  /-- `tag is nil` (structured form decoded from JSON `null`). -/
  | nilTag
  /-- `field "key" is missing`. -/
  | keyMissing
  /-- `field "key"'s value is missing` (JSON null). -/
  | keyNull
  /-- `field "key"'s value is invalid` (not a string). -/
  | keyBad
  /-- `field "value" is missing`. -/
  | valMissing
  /-- `field "value"'s value is missing` (JSON null). -/
  | valNull
  /-- `field "value"'s value is invalid` (not a string). -/
  | valBad
  /-- `failed to parse Tag` (input neither string nor object/null). -/
  | notTag
  /-- `tag key "knit#…" is reserved for system tags` (the policy error). -/
  | policy
  /-- `annotation format error (should be key=value)`. -/
  | noEq
  /-- an Annotation input that is not a JSON string. -/
  | notString
deriving DecidableEq

/-- The value-constraint checks of `Tag.Parse`'s `switch` on the trimmed key:
timestamp values must parse, transient values must be one of the three
enumerated literals, any other key passes. -/
def tagValidate (k v : Str) : Option TErr :=
  if k = keyKnitTimestamp then
    match parseRFC3339 v with
    | none => some TErr.badTimestamp
    | some _ => none
  else if k = keyKnitTransient then
    if v = valueKnitTransientProcessing ∨ v = valueKnitTransientFailed ∨ v = valueKnitTransientPurged then
      none
    else some TErr.badTransient
  else none

/-- `Tag.Parse` on a pointer receiver, with the receiver's mutation made
explicit: split at the first `:`, trim both sides, run the key-specific
validation, and only then assign both fields. The pre-state is returned
unchanged on every failure, matching the Go control flow. -/
def tagParseSt (t : Tag) (s : Str) : Option TErr × Tag :=
  match cutOn ':' s with
  | none => (some TErr.noKey, t)
  | some (k0, v0) =>
    let k := trimSpace k0
    let v := trimSpace v0
    match tagValidate k v with
    | some e => (some e, t)
    | none => (none, { key := k, value := v })

/-- JSON values as the Tag/Annotation decoders distinguish them: a string, an
object (Go `map[string]interface{}`), `null`, or anything else. -/
inductive JValue where
  | null
  | str (s : Str)
  | obj (o : List (Str × JValue))
  | other

/-- An object's fields (Go `map[string]interface{}`; JSON object keys are
unique, so first-match lookup is the map lookup). -/
abbrev JObj := List (Str × JValue)

/-- Map lookup on a decoded object. -/
def jlookup (o : JObj) (k : Str) : Option JValue :=
  match o with
  | [] => none
  | (k', v) :: rest => if k' = k then some v else jlookup rest k

/-- `Tag.unarshal`: the structured-object decoder, with the receiver's
mutation explicit. NOTE the Go order: `t.Key` is assigned as soon as the
`key` field checks out, before the `value` field is checked. -/
def unarshalSt (t : Tag) (dat : Option JObj) : Option TErr × Tag :=
  match dat with
  | none => (some TErr.nilTag, t)
  | some o =>
    match jlookup o ("key".data) with
    | none => (some TErr.keyMissing, t)
    | some JValue.null => (some TErr.keyNull, t)
    | some (JValue.str k) =>
      let t1 : Tag := { t with key := k }
      match jlookup o ("value".data) with
      | none => (some TErr.valMissing, t1)
      | some JValue.null => (some TErr.valNull, t1)
      | some (JValue.str v) => (none, { t1 with value := v })
      | some _ => (some TErr.valBad, t1)
    | some _ => (some TErr.keyBad, t)

/-- `Tag.UnmarshalJSON`: a JSON string goes through `Tag.Parse`; an object
(or `null`, which Go decodes into a nil map) goes through `Tag.unarshal`;
anything else is `failed to parse Tag`. -/
def tagUnmarshalJSONSt (t : Tag) (v : JValue) : Option TErr × Tag :=
  match v with
  | JValue.str s => tagParseSt t s
  | JValue.obj o => unarshalSt t (some o)
  | JValue.null => unarshalSt t none
  | JValue.other => (some TErr.notTag, t)

/-- `tags.UserTag` has the shape of `Tag` (Go: `type UserTag Tag`). -/
abbrev UserTag := Tag

/-- `UserTag.UnmarshalJSON`: decode into a fresh zero `Tag`, then reject a
key carrying the reserved prefix with the policy error. -/
def userTagUnmarshalJSON (v : JValue) : Except TErr UserTag :=
  match tagUnmarshalJSONSt { key := [], value := [] } v with
  | (some e, _) => Except.error e
  | (none, t) =>
    if hasPfx systemTagPfx t.key then Except.error TErr.policy else Except.ok t

/-- `tags.Change`: the tag change-set request body. -/
structure Change where
  addTags : List UserTag
  removeTags : List UserTag
  removeKey : List Str
deriving DecidableEq

/-- Element-wise decoding of a JSON array, stopping at the first failing
element as `encoding/json` does. -/
def decodeAll (f : α → Except TErr β) : List α → Except TErr (List β)
  | [] => Except.ok []
  | x :: xs =>
    match f x with
    | Except.error e => Except.error e
    | Except.ok y =>
      match decodeAll f xs with
      | Except.error e => Except.error e
      | Except.ok ys => Except.ok (y :: ys)

/-- The `remove_key` loop of `Change.UnmarshalJSON`: the first key carrying
the reserved prefix yields the policy error. -/
def rkCheck : List Str → Option TErr
  | [] => none
  | k :: ks => if hasPfx systemTagPfx k then some TErr.policy else rkCheck ks

/-- `Change.UnmarshalJSON`: decode `add` and `remove` element-wise as
UserTags, check every `remove_key` against the reserved prefix, and populate
the value only when everything passed. -/
def changeUnmarshal (add remove : List JValue) (rk : List Str) : Except TErr Change :=
  match decodeAll userTagUnmarshalJSON add with
  | Except.error e => Except.error e
  | Except.ok a =>
    match decodeAll userTagUnmarshalJSON remove with
    | Except.error e => Except.error e
    | Except.ok r =>
      match rkCheck rk with
      | some e => Except.error e
      | none => Except.ok { addTags := a, removeTags := r, removeKey := rk }

/-- The inner scan of `cmp.SliceEqualUnordered`: find the first element of
the working copy equal to `x` and remove it. -/
def findRemove (eq : α → α → Bool) (x : α) : List α → Option (List α)
  | [] => none
  | y :: ys =>
    if eq x y then some ys
    else
      match findRemove eq x ys with
      | none => none
      | some ys' => some (y :: ys')

/-- The labelled loop of `cmp.SliceEqualUnordered`: consume each element of
`a`, removing its first match from the working copy of `b`; succeed when the
working copy ends empty. -/
def sliceGo (eq : α → α → Bool) : List α → List α → Bool
  | [], b => b.isEmpty
  | x :: xs, b =>
    match findRemove eq x b with
    | none => false
    | some b' => sliceGo eq xs b'

/-- `cmp.SliceEqualUnordered` (and its `comparable` twin
`SliceEqEqUnordered`, which is the same algorithm at `eq := (· == ·)`):
short-circuit on differing lengths, then first-match greedy consumption. -/
def sliceEqualUnordered (eq : α → α → Bool) (a b : List α) : Bool :=
  if a.length = b.length then sliceGo eq a b else false

/-- `plans.Annotation`: a key/value pair in `key=value` form. -/
structure Annot where
  key : Str
  value : Str
deriving DecidableEq

/-- `Annotation.String()`: the `key=value` form. -/
def annotString (a : Annot) : Str := a.key ++ '=' :: a.value

/-- `Annotation.Equal`: exact key and value string equality. -/
def annotEqual (a b : Annot) : Bool :=
  a.key == b.key && a.value == b.value

/-- `Annotation.parse`: split at the first `=`, trim both sides; no
reserved-key check at this layer. -/
def annotParse (s : Str) : Except TErr Annot :=
  match cutOn '=' s with
  | none => Except.error TErr.noEq
  | some (k, v) => Except.ok { key := trimSpace k, value := trimSpace v }

/-- `Annotation.UnmarshalJSON`: only the string form is accepted. -/
def annotUnJSON (v : JValue) : Except TErr Annot :=
  match v with
  | JValue.str s => annotParse s
  | _ => Except.error TErr.notString

/-- `Annotations.Equal`: unordered multiset equality over `Annotation.Equal`. -/
def annotsEqual (a b : List Annot) : Bool :=
  sliceEqualUnordered annotEqual a b

/-- The comparator of `Annotations.marshal`'s `slices.SortFunc`: by key,
then by value. -/
def annotLe (x y : Annot) : Bool :=
  strLt x.key y.key || (x.key == y.key && strLe x.value y.value)

/-- Ordered insertion under `annotLe` (elements with equal keys and values
are indistinguishable, so any sort under this comparator emits the same
list as `slices.SortFunc`). -/
def insertA (x : Annot) : List Annot → List Annot
  | [] => [x]
  | y :: ys => if annotLe x y then x :: y :: ys else y :: insertA x ys

/-- The sort of `Annotations.marshal` over a copy of the collection. -/
def sortA : List Annot → List Annot
  | [] => []
  | x :: xs => insertA x (sortA xs)

/-- `Annotations.marshal`: copy and sort by (key, value). -/
def annotsMarshal (ans : List Annot) : List Annot := sortA ans

/-- `Annotations.MarshalJSON` composed with `Annotation.MarshalJSON`: the
emitted array of `key=value` strings. -/
def annotsMarshalJSON (ans : List Annot) : List Str :=
  (annotsMarshal ans).map annotString

/-- `plans.AnnotationChange`: a plain struct with no custom unmarshaller and
no validation pass; decoding a body decodes `add` and `remove` element-wise
with `Annotation.UnmarshalJSON` and takes `remove_key` verbatim. -/
structure AnnotChange where
  add : List Annot
  remove : List Annot
  removeKey : List Str
deriving DecidableEq

/-- Decoding a JSON body into an `AnnotationChange` (default struct
decoding: no reserved-prefix check anywhere on this path). -/
def annotChangeUnmarshal (add remove : List JValue) (rk : List Str) : Except TErr AnnotChange :=
  match decodeAll annotUnJSON add with
  | Except.error e => Except.error e
  | Except.ok a =>
    match decodeAll annotUnJSON remove with
    | Except.error e => Except.error e
    | Except.ok r => Except.ok { add := a, remove := r, removeKey := rk }

/-- `plans.Image`: repository and tag. -/
structure Image where
  repository : Str
  tag : Str
deriving DecidableEq

/-- `Image.Equal` on nullable receivers: both absent, or both present and
field-wise equal. -/
def imageEqualOpt : Option Image → Option Image → Bool
  | none, none => true
  | some i, some o => i.repository == o.repository && i.tag == o.tag
  | _, _ => false

/-- `plans.Summary`: plan id, optional image, name. -/
structure PlanSummary where
  planId : Str
  image : Option Image
  name : Str
deriving DecidableEq

/-- `plans.Summary.Equal`. -/
def planSummaryEqual (s o : PlanSummary) : Bool :=
  s.planId == o.planId && imageEqualOpt s.image o.image && s.name == o.name

/-- `plans.Mountpoint`: path and tags. -/
structure Mountpoint where
  path : Str
  tags : List Tag
deriving DecidableEq

/-- `plans.Mountpoint.Equal`. -/
def mountpointEqual (m o : Mountpoint) : Bool :=
  m.path == o.path && sliceEqualUnordered tagEqual m.tags o.tags

/-- `plans.LogPoint`: tags. -/
structure LogPoint where
  tags : List Tag
deriving DecidableEq

/-- `plans.LogPoint.Equal`. -/
def logPointEqual (l o : LogPoint) : Bool :=
  sliceEqualUnordered tagEqual l.tags o.tags

/-- `runs.Assignment`: a mountpoint paired with the assigned Data's id. -/
structure Assignment where
  mountpoint : Mountpoint
  knitId : Str
deriving DecidableEq

/-- `runs.Assignment.Equal`. -/
def assignmentEqual (a o : Assignment) : Bool :=
  mountpointEqual a.mountpoint o.mountpoint && a.knitId == o.knitId

/-- `runs.LogSummary`: a log point paired with the log Data's id. -/
structure LogSummary where
  logPoint : LogPoint
  knitId : Str
deriving DecidableEq

/-- `runs.LogSummary.Equal`. -/
def logSummaryEqual (l o : LogSummary) : Bool :=
  logPointEqual l.logPoint o.logPoint && l.knitId == o.knitId

/-- `runs.Exit`: exit code (uint8; only compared for equality here) and
message. -/
structure Exit where
  code : Nat
  message : Str
deriving DecidableEq

/-- `runs.Exit.Equal`. -/
def exitEqual (e o : Exit) : Bool :=
  e.code == o.code && e.message == o.message

/-- The nil-aware pairing used for every optional substructure: both absent,
or both present and equal under the element comparison. -/
def optEqualBy (f : β → β → Bool) : Option β → Option β → Bool
  | none, none => true
  | some a, some b => f a b
  | _, _ => false

/-- `runs.Summary`. `UpdatedAt` is `rfctime.RFC3339`; that package is not
among the given files, and per spec its equality is same-instant equality,
so the field is embedded as the instant it denotes. -/
structure RunSummary where
  runId : Str
  status : Str
  updatedAt : Instant
  exit : Option Exit
  plan : PlanSummary
deriving DecidableEq

/-- `runs.Summary.Equal` (compares RunId, Exit, Plan, Status, UpdatedAt). -/
def runSummaryEqual (s o : RunSummary) : Bool :=
  s.runId == o.runId &&
  optEqualBy exitEqual s.exit o.exit &&
  planSummaryEqual s.plan o.plan &&
  s.status == o.status &&
  s.updatedAt == o.updatedAt

/-- `runs.Detail`: the embedded `Summary` plus inputs, outputs and log. -/
structure RunDetail where
  summary : RunSummary
  inputs : List Assignment
  outputs : List Assignment
  log : Option LogSummary
deriving DecidableEq

/-- `runs.Detail.Equal`: compares RunId, Plan, Status, UpdatedAt, the
unordered inputs and outputs, and the nil-aware Log — and nothing else. -/
def runDetailEqual (r o : RunDetail) : Bool :=
  r.summary.runId == o.summary.runId &&
  planSummaryEqual r.summary.plan o.summary.plan &&
  r.summary.status == o.summary.status &&
  r.summary.updatedAt == o.summary.updatedAt &&
  sliceEqualUnordered assignmentEqual r.inputs o.inputs &&
  sliceEqualUnordered assignmentEqual r.outputs o.outputs &&
  optEqualBy logSummaryEqual r.log o.log

/-! ### Helper lemmas: splitting at the first separator -/

theorem cutOn_of_not_mem (c : Char) (s : Str) (h : c ∉ s) : cutOn c s = none := by
  induction s with
  | nil => rfl
  | cons d ds ih =>
    have hd : ¬ d = c := fun e => h (e ▸ List.mem_cons_self d ds)
    have hds : c ∉ ds := fun hm => h (List.mem_cons_of_mem d hm)
    rw [cutOn, if_neg hd, ih hds]

theorem cutOn_of_mem (c : Char) (s : Str) (h : c ∈ s) :
    cutOn c s = some (s.takeWhile (fun d => d != c), (s.dropWhile (fun d => d != c)).tail) := by
  induction s with
  | nil => cases h
  | cons d ds ih =>
    by_cases hd : d = c
    · subst hd
      simp [cutOn, List.takeWhile, List.dropWhile]
    · have hds : c ∈ ds := by
        rcases List.mem_cons.mp h with h' | h'
        · exact absurd h'.symm hd
        · exact h'
      have hne : (d != c) = true := bne_iff_ne.mpr hd
      rw [cutOn, if_neg hd, ih hds]
      simp [List.takeWhile, List.dropWhile, hne]

theorem cutOn_append_sep (c : Char) (k v : Str) (h : c ∉ k) :
    cutOn c (k ++ c :: v) = some (k, v) := by
  induction k with
  | nil => simp [cutOn]
  | cons d ds ih =>
    have hd : ¬ d = c := fun e => h (e ▸ List.mem_cons_self d ds)
    have hds : c ∉ ds := fun hm => h (List.mem_cons_of_mem d hm)
    simp [cutOn, hd, ih hds]

theorem keyKnitTimestamp_ne_transient : keyKnitTimestamp ≠ keyKnitTransient := by decide

theorem tagValidate_eq_none_iff (k v : Str) :
    tagValidate k v = none ↔
      ¬((k = keyKnitTimestamp ∧ parseRFC3339 v = none) ∨
        (k = keyKnitTransient ∧
          ¬(v = valueKnitTransientProcessing ∨ v = valueKnitTransientFailed ∨
            v = valueKnitTransientPurged))) := by
  have hne : keyKnitTimestamp ≠ keyKnitTransient := keyKnitTimestamp_ne_transient
  rw [tagValidate]
  by_cases h1 : k = keyKnitTimestamp
  · subst h1
    cases hp : parseRFC3339 v with
    | none => simp [hp, hne]
    | some i => simp [hp, hne]
  · by_cases h2 : k = keyKnitTransient
    · subst h2
      by_cases h3 : v = valueKnitTransientProcessing ∨ v = valueKnitTransientFailed ∨
          v = valueKnitTransientPurged
      · simp [h1, h3]
      · simp [h1, h3]
    · simp [h1, h2]

theorem tagParseSt_nocut (t : Tag) (s : Str) (h : cutOn ':' s = none) :
    tagParseSt t s = (some TErr.noKey, t) := by
  unfold tagParseSt
  rw [h]

theorem tagParseSt_cut (t : Tag) (s k0 v0 : Str) (hcut : cutOn ':' s = some (k0, v0)) :
    tagParseSt t s =
      match tagValidate (trimSpace k0) (trimSpace v0) with
      | some e => (some e, t)
      | none => (none, { key := trimSpace k0, value := trimSpace v0 }) := by
  unfold tagParseSt
  rw [hcut]

/-! ### Claims about Tag equality and parsing -/

/-- C1: `Tag.Equal(a, b)` returns true iff the keys are identical and, for a
key other than `knit#timestamp`, the values are equal as plain strings, while
for the key `knit#timestamp` both values parse as RFC3339 datetimes denoting
the same instant; a failed parse on either side makes the tags unequal, and
the check itself is a total function (it never raises an error). The two
concluding conjuncts check the spec's concrete examples. -/
theorem tagEqual_spec (a b : Tag) :
    (tagEqual a b = true ↔
      (a.key = b.key ∧
        ((a.key ≠ keyKnitTimestamp ∧ a.value = b.value)
          ∨ (a.key = keyKnitTimestamp ∧
              ∃ ia ib, parseRFC3339 a.value = some ia ∧ parseRFC3339 b.value = some ib ∧
                ia = ib))))
    ∧ tagEqual { key := keyKnitTimestamp, value := "2024-01-01T00:00:00Z".data }
        { key := keyKnitTimestamp, value := "2024-01-01T09:00:00+09:00".data } = true
    ∧ tagEqual { key := keyKnitTimestamp, value := "2024-01-01T00:00:00Z".data }
        { key := keyKnitTimestamp, value := "not-a-date".data } = false := by
  refine ⟨?_, by decide, by decide⟩
  obtain ⟨ak, av⟩ := a
  obtain ⟨bk, bv⟩ := b
  rw [tagEqual]
  dsimp only
  by_cases hk : ak = bk
  · subst hk
    by_cases ht : ak = keyKnitTimestamp
    · subst ht
      cases hpa : parseRFC3339 av with
      | none => simp [hpa]
      | some ia =>
        cases hpb : parseRFC3339 bv with
        | none => simp [hpa, hpb]
        | some ib =>
          simp only [ne_eq, not_true_eq_false, if_false, hpa, hpb, beq_iff_eq, true_and,
            not_true_eq_false, false_and, false_or, Option.some.injEq]
          constructor
          · rintro rfl
            exact ⟨ia, ia, rfl, rfl, rfl⟩
          · rintro ⟨x, y, hx, hy, rfl⟩
            exact hx.trans hy.symm
    · simp [ht, beq_iff_eq]
  · simp [hk]

/-- C3: `Tag.Parse(s)` fails iff `s` has no `:`, or the trimmed key (the part
before the first `:`) is `knit#timestamp` with a trimmed value that does not
parse as an RFC3339 datetime, or the trimmed key is `knit#transient` with a
trimmed value outside {processing, failed, purged}; otherwise it succeeds and
sets the Tag to the trimmed parts around the first `:` (later colons belong
to the value), with no value constraint for any other key. -/
theorem tagParse_characterization (t : Tag) (s : Str) :
    ((∃ e, (tagParseSt t s).1 = some e) ↔
      (':' ∉ s
        ∨ (trimSpace (s.takeWhile (fun d => d != ':')) = keyKnitTimestamp
            ∧ parseRFC3339 (trimSpace ((s.dropWhile (fun d => d != ':')).tail)) = none)
        ∨ (trimSpace (s.takeWhile (fun d => d != ':')) = keyKnitTransient
            ∧ ¬(trimSpace ((s.dropWhile (fun d => d != ':')).tail) = valueKnitTransientProcessing
                ∨ trimSpace ((s.dropWhile (fun d => d != ':')).tail) = valueKnitTransientFailed
                ∨ trimSpace ((s.dropWhile (fun d => d != ':')).tail) = valueKnitTransientPurged))))
    ∧ ((tagParseSt t s).1 = none →
        tagParseSt t s =
          (none, { key := trimSpace (s.takeWhile (fun d => d != ':')),
                   value := trimSpace ((s.dropWhile (fun d => d != ':')).tail) })) := by
  by_cases hc : ':' ∈ s
  · have heq := tagParseSt_cut t s _ _ (cutOn_of_mem ':' s hc)
    constructor
    · cases hv : tagValidate (trimSpace (s.takeWhile (fun d => d != ':')))
          (trimSpace ((s.dropWhile (fun d => d != ':')).tail)) with
      | some e =>
        rw [hv] at heq
        refine iff_of_true ⟨e, by rw [heq]⟩ ?_
        have hne : ¬ tagValidate (trimSpace (s.takeWhile (fun d => d != ':')))
            (trimSpace ((s.dropWhile (fun d => d != ':')).tail)) = none := by simp [hv]
        exact Or.inr (not_not.mp ((not_iff_not.mpr (tagValidate_eq_none_iff _ _)).mp hne))
      | none =>
        rw [hv] at heq
        refine iff_of_false ?_ ?_
        · rintro ⟨e, he⟩
          rw [heq] at he
          simp at he
        · have hok := (tagValidate_eq_none_iff _ _).mp hv
          rintro (h | h | h)
          · exact h hc
          · exact hok (Or.inl h)
          · exact hok (Or.inr h)
    · intro hnone
      cases hv : tagValidate (trimSpace (s.takeWhile (fun d => d != ':')))
          (trimSpace ((s.dropWhile (fun d => d != ':')).tail)) with
      | some e =>
        rw [hv] at heq
        rw [heq] at hnone
        simp at hnone
      | none =>
        rw [hv] at heq
        rw [heq]
  · have heq := tagParseSt_nocut t s (cutOn_of_not_mem ':' s hc)
    constructor
    · exact iff_of_true ⟨TErr.noKey, by rw [heq]⟩ (Or.inl hc)
    · intro hnone
      rw [heq] at hnone
      simp at hnone

/-- C9: Tag equality is not reflexive: a Tag whose key is `knit#timestamp`
and whose value does not parse as an RFC3339 datetime is not equal to
itself. -/
theorem tagEqual_irrefl_timestamp (t : Tag) (h1 : t.key = keyKnitTimestamp)
    (h2 : parseRFC3339 t.value = none) : tagEqual t t = false := by
  rw [tagEqual]
  simp [h1, h2]

/-- Witness for C9 at the concrete Tag `knit#timestamp:not-a-date`. -/
theorem tagEqual_irrefl_timestamp_witness :
    tagEqual { key := "knit#timestamp".data, value := "not-a-date".data }
      { key := "knit#timestamp".data, value := "not-a-date".data } = false :=
  tagEqual_irrefl_timestamp { key := "knit#timestamp".data, value := "not-a-date".data }
    (by decide) (by decide)

/-- C6 counterexample: for the Tag with key `a:b` and value `c`, parsing the
canonical formatted string does not give the Tag back (the first colon of
the formatted string falls inside the key). -/
theorem tagRoundtrip_cex :
    (tagParseSt { key := "a:b".data, value := "c".data }
        (tagString { key := "a:b".data, value := "c".data })).2
      ≠ { key := "a:b".data, value := "c".data } := by decide

/-- C6 amended: `Tag.Parse(t.String())` succeeds and returns exactly `t`
(whatever the pre-state of the receiver) for every Tag `t` whose key
contains no `:`, whose key and value are stable under whitespace trimming,
and whose key-specific value constraint holds. -/
theorem tagRoundtrip_amended (t u : Tag) (h1 : ':' ∉ t.key)
    (h2 : trimSpace t.key = t.key) (h3 : trimSpace t.value = t.value)
    (h4 : tagValidate t.key t.value = none) :
    tagParseSt u (tagString t) = (none, t) := by
  obtain ⟨tk, tv⟩ := t
  simp only at h1 h2 h3 h4
  have hcut : cutOn ':' (tagString { key := tk, value := tv }) = some (tk, tv) :=
    cutOn_append_sep ':' tk tv h1
  rw [tagParseSt_cut u _ tk tv hcut, h2, h3, h4]

/-- Witness for C6 at the Tag `team:alpha` and a nonempty pre-state. -/
theorem tagRoundtrip_witness :
    tagParseSt { key := "x".data, value := "y".data }
        (tagString { key := "team".data, value := "alpha".data })
      = (none, { key := "team".data, value := "alpha".data }) :=
  tagRoundtrip_amended { key := "team".data, value := "alpha".data }
    { key := "x".data, value := "y".data } (by decide) (by decide) (by decide) (by decide)

/-- C7 counterexample: the structured-object decoder fails on a body whose
`key` field is a string but whose `value` field is missing, yet it has
already overwritten the target's Key — the target is not left unmodified on
failure. -/
theorem parse_partial_mutation_cex :
    unarshalSt { key := "k0".data, value := "v0".data }
        (some [("key".data, JValue.str "k1".data)])
      = (some TErr.valMissing, { key := "k1".data, value := "v0".data })
    ∧ ({ key := "k1".data, value := "v0".data } : Tag)
        ≠ { key := "k0".data, value := "v0".data } := by
  exact ⟨by decide, by decide⟩

/-- C7 amended: the compact-string `Tag.Parse` never mutates the target on
failure; the structured-object decoder never mutates the target's Value on
failure, and on failure the target is either unchanged or has exactly its
Key overwritten with the decoded `key` field (which happens when the `value`
field check fails). -/
theorem parse_no_partial_mutation_amended (t : Tag) (s : Str) (o : Option JObj) :
    ((tagParseSt t s).1.isSome = true → (tagParseSt t s).2 = t)
    ∧ ((unarshalSt t o).1.isSome = true → (unarshalSt t o).2.value = t.value)
    ∧ ((unarshalSt t o).1.isSome = true →
        ((unarshalSt t o).2 = t ∨
          ∃ k dat, o = some dat ∧ jlookup dat ("key".data) = some (JValue.str k)
            ∧ (unarshalSt t o).2 = { t with key := k })) := by
  refine ⟨?_, ?_, ?_⟩
  · intro h
    cases hcut : cutOn ':' s with
    | none => rw [tagParseSt_nocut t s hcut]
    | some kv =>
      obtain ⟨k0, v0⟩ := kv
      have heq := tagParseSt_cut t s k0 v0 hcut
      cases hv : tagValidate (trimSpace k0) (trimSpace v0) with
      | some e =>
        rw [hv] at heq
        rw [heq]
      | none =>
        rw [hv] at heq
        rw [heq] at h
        simp at h
  · intro h
    cases o with
    | none => simp [unarshalSt]
    | some dat =>
      cases hk : jlookup dat ("key".data) with
      | none => simp [unarshalSt, hk]
      | some jv =>
        cases jv with
        | null => simp [unarshalSt, hk]
        | str k =>
          cases hv : jlookup dat ("value".data) with
          | none => simp [unarshalSt, hk, hv]
          | some jw =>
            cases jw with
            | null => simp [unarshalSt, hk, hv]
            | str v => simp [unarshalSt, hk, hv] at h
            | obj o' => simp [unarshalSt, hk, hv]
            | other => simp [unarshalSt, hk, hv]
        | obj o' => simp [unarshalSt, hk]
        | other => simp [unarshalSt, hk]
  · intro h
    cases o with
    | none => exact Or.inl (by simp [unarshalSt])
    | some dat =>
      cases hk : jlookup dat ("key".data) with
      | none => exact Or.inl (by simp [unarshalSt, hk])
      | some jv =>
        cases jv with
        | null => exact Or.inl (by simp [unarshalSt, hk])
        | str k =>
          cases hv : jlookup dat ("value".data) with
          | none => exact Or.inr ⟨k, dat, rfl, hk, by simp [unarshalSt, hk, hv]⟩
          | some jw =>
            cases jw with
            | null => exact Or.inr ⟨k, dat, rfl, hk, by simp [unarshalSt, hk, hv]⟩
            | str v => simp [unarshalSt, hk, hv] at h
            | obj o' => exact Or.inr ⟨k, dat, rfl, hk, by simp [unarshalSt, hk, hv]⟩
            | other => exact Or.inr ⟨k, dat, rfl, hk, by simp [unarshalSt, hk, hv]⟩
        | obj o' => exact Or.inl (by simp [unarshalSt, hk])
        | other => exact Or.inl (by simp [unarshalSt, hk])

/-! ### Helper lemmas: the unordered equality engine -/

theorem findRemove_some {α : Type} (eq : α → α → Bool) (x : α) (b c : List α)
    (h : findRemove eq x b = some c) :
    ∃ z, eq x z = true ∧ List.Perm b (z :: c) := by
  induction b generalizing c with
  | nil => simp [findRemove] at h
  | cons y ys ih =>
    rw [findRemove] at h
    by_cases hxy : eq x y = true
    · rw [if_pos hxy] at h
      obtain rfl := Option.some.inj h
      exact ⟨y, hxy, List.Perm.refl _⟩
    · rw [if_neg hxy] at h
      cases hfr : findRemove eq x ys with
      | none => rw [hfr] at h; cases h
      | some ys' =>
        rw [hfr] at h
        obtain rfl := Option.some.inj h
        obtain ⟨z, hz, hperm⟩ := ih ys' hfr
        exact ⟨z, hz, List.Perm.trans (List.Perm.cons y hperm) (List.Perm.swap z y ys')⟩

theorem findRemove_mem {α : Type} (eq : α → α → Bool) (x y : α) (b : List α)
    (hy : y ∈ b) (hxy : eq x y = true) : ∃ c, findRemove eq x b = some c := by
  induction b with
  | nil => cases hy
  | cons z zs ih =>
    rw [findRemove]
    by_cases hxz : eq x z = true
    · rw [if_pos hxz]
      exact ⟨zs, rfl⟩
    · rw [if_neg hxz]
      have hyz : y ∈ zs := by
        rcases List.mem_cons.mp hy with rfl | h'
        · exact absurd hxy hxz
        · exact h'
      obtain ⟨c, hc⟩ := ih hyz
      rw [hc]
      exact ⟨z :: c, rfl⟩

theorem sliceGo_sound {α : Type} (eq : α → α → Bool) (a b : List α)
    (h : sliceGo eq a b = true) :
    Multiset.Rel (fun x y => eq x y = true) ↑a ↑b := by
  induction a generalizing b with
  | nil =>
    cases b with
    | nil => simp
    | cons y ys => simp [sliceGo] at h
  | cons x xs ih =>
    rw [sliceGo] at h
    cases hfr : findRemove eq x b with
    | none => rw [hfr] at h; cases h
    | some b' =>
      rw [hfr] at h
      obtain ⟨z, hz, hperm⟩ := findRemove_some eq x b b' hfr
      have hrel := ih b' h
      have hb : (↑b : Multiset α) = ↑(z :: b') := Multiset.coe_eq_coe.mpr hperm
      rw [← Multiset.cons_coe x xs, hb, ← Multiset.cons_coe z b']
      exact Multiset.Rel.cons hz hrel

theorem sliceGo_complete {α : Type} (eq : α → α → Bool)
    (hsymm : ∀ x y, eq x y = eq y x)
    (htrans : ∀ x y z, eq x y = true → eq y z = true → eq x z = true)
    (a b : List α) (h : Multiset.Rel (fun x y => eq x y = true) ↑a ↑b) :
    sliceGo eq a b = true := by
  induction a generalizing b with
  | nil =>
    rw [Multiset.coe_nil] at h
    have hbe : b = [] := (Multiset.coe_eq_zero b).mp (Multiset.rel_zero_left.mp h)
    subst hbe
    rfl
  | cons x xs ih =>
    have h' : Multiset.Rel (fun x y => eq x y = true) (x ::ₘ ↑xs) ↑b := by
      rwa [Multiset.cons_coe]
    obtain ⟨y, t', hxy, hrest, hb⟩ := Multiset.rel_cons_left.mp h'
    have hyb : y ∈ b := by
      have : y ∈ (↑b : Multiset α) := hb ▸ Multiset.mem_cons_self y t'
      exact Multiset.mem_coe.mp this
    obtain ⟨c, hc⟩ := findRemove_mem eq x y b hyb hxy
    obtain ⟨z, hxz, hperm⟩ := findRemove_some eq x b c hc
    have hbz : (↑b : Multiset α) = z ::ₘ ↑c := by
      rw [Multiset.coe_eq_coe.mpr hperm, ← Multiset.cons_coe]
    have hyz : y ::ₘ t' = z ::ₘ (↑c : Multiset α) := by rw [← hb, hbz]
    have hrelc : Multiset.Rel (fun x y => eq x y = true) ↑xs ↑c := by
      rcases Multiset.cons_eq_cons.mp hyz with ⟨rfl, ht⟩ | ⟨hne, cs, ht', hcs⟩
      · rwa [ht] at hrest
      · rw [ht'] at hrest
        obtain ⟨x', s', hx'z, hs', hxs⟩ := Multiset.rel_cons_right.mp hrest
        have hzx : eq z x = true := by rw [← hsymm]; exact hxz
        have hx'y : eq x' y = true := htrans x' x y (htrans x' z x hx'z hzx) hxy
        rw [hxs, hcs]
        exact Multiset.Rel.cons hx'y hs'
    rw [sliceGo, hc]
    exact ih c hrelc

theorem forall₂_rel {α : Type} (R : α → α → Prop) (a c : List α)
    (h : List.Forall₂ R a c) : Multiset.Rel R ↑a ↑c := by
  induction h with
  | nil => simp
  | cons hxy hrest ih =>
    rw [← Multiset.cons_coe, ← Multiset.cons_coe]
    exact Multiset.Rel.cons hxy ih

theorem rel_exists_forall₂ {α : Type} (R : α → α → Prop) (a b : List α)
    (h : Multiset.Rel R ↑a ↑b) : ∃ c, List.Perm b c ∧ List.Forall₂ R a c := by
  induction a generalizing b with
  | nil =>
    rw [Multiset.coe_nil] at h
    have hbe : b = [] := (Multiset.coe_eq_zero b).mp (Multiset.rel_zero_left.mp h)
    subst hbe
    exact ⟨[], List.Perm.refl _, List.Forall₂.nil⟩
  | cons x xs ih =>
    have h' : Multiset.Rel R (x ::ₘ ↑xs) ↑b := by rwa [Multiset.cons_coe]
    obtain ⟨y, t', hxy, hrest, hb⟩ := Multiset.rel_cons_left.mp h'
    obtain ⟨l, hl⟩ := t'.exists_rep
    rw [← hl] at hrest hb
    obtain ⟨c, hperm, hfa⟩ := ih l hrest
    have hbperm : List.Perm b (y :: l) := Multiset.coe_eq_coe.mp (by rw [hb]; rfl)
    exact ⟨y :: c, List.Perm.trans hbperm (List.Perm.cons y hperm), List.Forall₂.cons hxy hfa⟩

theorem matched_iff_rel {α : Type} (eq : α → α → Bool) (a b : List α) :
    (∃ c, List.Perm b c ∧ List.Forall₂ (fun x y => eq x y = true) a c)
      ↔ Multiset.Rel (fun x y => eq x y = true) ↑a ↑b := by
  constructor
  · rintro ⟨c, hperm, hfa⟩
    rw [Multiset.coe_eq_coe.mpr hperm]
    exact forall₂_rel _ a c hfa
  · exact rel_exists_forall₂ _ a b

theorem rel_symm_of {α : Type} (eq : α → α → Bool) (hsymm : ∀ x y, eq x y = eq y x)
    {s t : Multiset α} (h : Multiset.Rel (fun x y => eq x y = true) s t) :
    Multiset.Rel (fun x y => eq x y = true) t s := by
  induction h with
  | zero => exact Multiset.Rel.zero
  | cons hxy _ ih => exact Multiset.Rel.cons (by rw [hsymm]; exact hxy) ih

theorem sliceEqualUnordered_iff {α : Type} (eq : α → α → Bool)
    (hsymm : ∀ x y, eq x y = eq y x)
    (htrans : ∀ x y z, eq x y = true → eq y z = true → eq x z = true)
    (a b : List α) :
    sliceEqualUnordered eq a b = true ↔
      ∃ c, List.Perm b c ∧ List.Forall₂ (fun x y => eq x y = true) a c := by
  rw [sliceEqualUnordered]
  by_cases hlen : a.length = b.length
  · rw [if_pos hlen]
    constructor
    · intro h
      exact rel_exists_forall₂ _ a b (sliceGo_sound eq a b h)
    · rintro ⟨c, hperm, hfa⟩
      apply sliceGo_complete eq hsymm htrans
      rw [Multiset.coe_eq_coe.mpr hperm]
      exact forall₂_rel _ a c hfa
  · rw [if_neg hlen]
    constructor
    · intro h; cases h
    · rintro ⟨c, hperm, hfa⟩
      exact absurd (hfa.length_eq.trans hperm.length_eq.symm) hlen

/-! ### Claim C2 -/

/-- C2: for an element predicate `eq` that is a true equivalence relation,
`SliceEqualUnordered(a, b)` returns true iff the elements of `a` and `b` can
be matched bijectively with `eq` holding at every matched pair (stated as:
some permutation of `b` is pointwise `eq`-related to `a`); consequently it
is reflexive, symmetric, and invariant under permutation of either input. -/
theorem sliceEqualUnordered_correct {α : Type} (eq : α → α → Bool)
    (hrefl : ∀ x, eq x x = true)
    (hsymm : ∀ x y, eq x y = eq y x)
    (htrans : ∀ x y z, eq x y = true → eq y z = true → eq x z = true)
    (a b a' b' : List α) (ha : List.Perm a a') (hb : List.Perm b b') :
    (sliceEqualUnordered eq a b = true ↔
      ∃ c, List.Perm b c ∧ List.Forall₂ (fun x y => eq x y = true) a c)
    ∧ sliceEqualUnordered eq a a = true
    ∧ sliceEqualUnordered eq a b = sliceEqualUnordered eq b a
    ∧ sliceEqualUnordered eq a b = sliceEqualUnordered eq a' b' := by
  refine ⟨sliceEqualUnordered_iff eq hsymm htrans a b,
    (sliceEqualUnordered_iff eq hsymm htrans a a).mpr
      ⟨a, List.Perm.refl a, List.forall₂_same.mpr (fun x _ => hrefl x)⟩, ?_, ?_⟩
  · apply Bool.eq_iff_iff.mpr
    rw [sliceEqualUnordered_iff eq hsymm htrans a b, sliceEqualUnordered_iff eq hsymm htrans b a,
      matched_iff_rel, matched_iff_rel]
    exact ⟨rel_symm_of eq hsymm, rel_symm_of eq hsymm⟩
  · apply Bool.eq_iff_iff.mpr
    rw [sliceEqualUnordered_iff eq hsymm htrans a b, sliceEqualUnordered_iff eq hsymm htrans a' b',
      matched_iff_rel, matched_iff_rel, Multiset.coe_eq_coe.mpr ha, Multiset.coe_eq_coe.mpr hb]

/-- Witness for C2 at `eq` the decidable equality of naturals and concrete
permuted lists. -/
theorem sliceEqualUnordered_witness :
    (sliceEqualUnordered (fun x y : Nat => decide (x = y)) [1, 2, 2] [2, 2, 1] = true ↔
      ∃ c, List.Perm [2, 2, 1] c ∧
        List.Forall₂ (fun x y : Nat => decide (x = y) = true) [1, 2, 2] c)
    ∧ sliceEqualUnordered (fun x y : Nat => decide (x = y)) [1, 2, 2] [1, 2, 2] = true
    ∧ sliceEqualUnordered (fun x y : Nat => decide (x = y)) [1, 2, 2] [2, 2, 1]
        = sliceEqualUnordered (fun x y : Nat => decide (x = y)) [2, 2, 1] [1, 2, 2]
    ∧ sliceEqualUnordered (fun x y : Nat => decide (x = y)) [1, 2, 2] [2, 2, 1]
        = sliceEqualUnordered (fun x y : Nat => decide (x = y)) [2, 1, 2] [1, 2, 2] :=
  sliceEqualUnordered_correct (fun x y : Nat => decide (x = y))
    (fun x => by simp)
    (fun x y => decide_eq_decide.mpr ⟨Eq.symm, Eq.symm⟩)
    (fun x y z h1 h2 => by
      simp only [decide_eq_true_eq] at h1 h2 ⊢
      exact h1.trans h2)
    [1, 2, 2] [2, 2, 1] [2, 1, 2] [1, 2, 2] (by decide) (by decide)

/-! ### Helper lemmas: annotation ordering and sorting -/

theorem annotEqual_iff_eq (x y : Annot) : annotEqual x y = true ↔ x = y := by
  obtain ⟨xk, xv⟩ := x
  obtain ⟨yk, yv⟩ := y
  simp [annotEqual, Bool.and_eq_true, beq_iff_eq, Annot.mk.injEq]

theorem annotsEqual_iff_perm (a b : List Annot) :
    annotsEqual a b = true ↔ List.Perm a b := by
  have hsymm : ∀ x y, annotEqual x y = annotEqual y x := by
    intro x y
    apply Bool.eq_iff_iff.mpr
    rw [annotEqual_iff_eq, annotEqual_iff_eq]
    exact eq_comm
  have htrans : ∀ x y z, annotEqual x y = true → annotEqual y z = true →
      annotEqual x z = true := by
    intro x y z h1 h2
    rw [annotEqual_iff_eq] at h1 h2 ⊢
    exact h1.trans h2
  rw [annotsEqual, sliceEqualUnordered_iff annotEqual hsymm htrans a b]
  constructor
  · rintro ⟨c, hperm, hfa⟩
    have hac : List.Forall₂ (fun a b : Annot => a = b) a c :=
      hfa.imp (fun x y h => (annotEqual_iff_eq x y).mp h)
    rw [List.forall₂_eq_eq_eq] at hac
    subst hac
    exact hperm.symm
  · intro hperm
    exact ⟨a, hperm.symm, List.forall₂_same.mpr (fun x _ => (annotEqual_iff_eq x x).mpr rfl)⟩

theorem strLe_total (x y : Str) : strLe x y = true ∨ strLe y x = true := by
  induction x generalizing y with
  | nil => left; rfl
  | cons c cs ih =>
    cases y with
    | nil => right; rfl
    | cons d ds =>
      by_cases hcd : c = d
      · subst hcd
        rcases ih ds with h | h
        · left; rw [strLe, if_pos rfl]; exact h
        · right; rw [strLe, if_pos rfl]; exact h
      · rcases lt_trichotomy c d with h | h | h
        · left; rw [strLe, if_neg hcd]; exact decide_eq_true h
        · exact absurd h hcd
        · right; rw [strLe, if_neg (Ne.symm hcd)]; exact decide_eq_true h

theorem strLt_or_gt_of_ne (x y : Str) (h : x ≠ y) :
    strLt x y = true ∨ strLt y x = true := by
  induction x generalizing y with
  | nil =>
    cases y with
    | nil => exact absurd rfl h
    | cons d ds => left; rfl
  | cons c cs ih =>
    cases y with
    | nil => right; rfl
    | cons d ds =>
      by_cases hcd : c = d
      · subst hcd
        have hne : cs ≠ ds := fun he => h (by rw [he])
        rcases ih ds hne with h' | h'
        · left; rw [strLt, if_pos rfl]; exact h'
        · right; rw [strLt, if_pos rfl]; exact h'
      · rcases lt_trichotomy c d with h' | h' | h'
        · left; rw [strLt, if_neg hcd]; exact decide_eq_true h'
        · exact absurd h' hcd
        · right; rw [strLt, if_neg (Ne.symm hcd)]; exact decide_eq_true h'

theorem annotLe_total (x y : Annot) : annotLe x y = true ∨ annotLe y x = true := by
  by_cases hk : x.key = y.key
  · rcases strLe_total x.value y.value with h | h
    · left
      simp only [annotLe, Bool.or_eq_true, Bool.and_eq_true, beq_iff_eq]
      exact Or.inr ⟨hk, h⟩
    · right
      simp only [annotLe, Bool.or_eq_true, Bool.and_eq_true, beq_iff_eq]
      exact Or.inr ⟨hk.symm, h⟩
  · rcases strLt_or_gt_of_ne x.key y.key hk with h | h
    · left
      simp only [annotLe, Bool.or_eq_true]
      exact Or.inl h
    · right
      simp only [annotLe, Bool.or_eq_true]
      exact Or.inl h

theorem insertA_perm (x : Annot) (l : List Annot) :
    List.Perm (insertA x l) (x :: l) := by
  induction l with
  | nil => exact List.Perm.refl _
  | cons y ys ih =>
    rw [insertA]
    by_cases h : annotLe x y = true
    · rw [if_pos h]
    · rw [if_neg h]
      exact List.Perm.trans (List.Perm.cons y ih) (List.Perm.swap x y ys)

theorem sortA_perm (l : List Annot) : List.Perm (sortA l) l := by
  induction l with
  | nil => exact List.Perm.refl _
  | cons x xs ih =>
    rw [sortA]
    exact List.Perm.trans (insertA_perm x (sortA xs)) (List.Perm.cons x ih)

theorem insertA_head (x : Annot) (l : List Annot) :
    (insertA x l).head? = some x ∨ (insertA x l).head? = l.head? := by
  cases l with
  | nil => left; rfl
  | cons y ys =>
    rw [insertA]
    by_cases h : annotLe x y = true
    · rw [if_pos h]; left; rfl
    · rw [if_neg h]; right; rfl

theorem insertA_chain (x : Annot) (l : List Annot)
    (h : List.Chain' (fun a b => annotLe a b = true) l) :
    List.Chain' (fun a b => annotLe a b = true) (insertA x l) := by
  induction l with
  | nil => simp [insertA]
  | cons y ys ih =>
    rw [insertA]
    by_cases hxy : annotLe x y = true
    · rw [if_pos hxy]
      exact List.Chain'.cons hxy h
    · rw [if_neg hxy]
      have hyx : annotLe y x = true := (annotLe_total x y).resolve_left hxy
      have hchain := ih h.tail
      apply List.chain'_cons'.mpr
      refine ⟨?_, hchain⟩
      intro z hz
      rcases insertA_head x ys with hh | hh
      · rw [hh] at hz
        have hzx : x = z := by simpa using hz
        subst hzx
        exact hyx
      · rw [hh] at hz
        cases ys with
        | nil => simp at hz
        | cons w ws =>
          have hzw : w = z := by simpa using hz
          subst hzw
          exact (List.chain'_cons.mp h).1

theorem sortA_chain (l : List Annot) :
    List.Chain' (fun a b => annotLe a b = true) (sortA l) := by
  induction l with
  | nil => simp [sortA]
  | cons x xs ih =>
    rw [sortA]
    exact insertA_chain x (sortA xs) ih

/-! ### Claim C8 -/

/-- C8: JSON serialization of an Annotations collection emits a copy sorted
by key and then by value (stated as: the marshalled list is a permutation of
the input in which every adjacent pair is ordered under the key-then-value
comparator), so `Annotations{{b,2},{a,1}}` serializes to `["a=1","b=2"]`,
while `Annotations.Equal` is unordered multiset equality over exact
key/value string equality: it holds exactly on permutations. -/
theorem annots_marshal_equal_spec (ans bns : List Annot) :
    (annotsEqual ans bns = true ↔ List.Perm ans bns)
    ∧ List.Perm (annotsMarshal ans) ans
    ∧ List.Chain' (fun a b => annotLe a b = true) (annotsMarshal ans)
    ∧ annotsMarshalJSON [{ key := "b".data, value := "2".data },
        { key := "a".data, value := "1".data }]
        = ["a=1".data, "b=2".data] :=
  ⟨annotsEqual_iff_perm ans bns, sortA_perm ans, sortA_chain ans, by decide⟩

/-! ### Helper lemmas: element-wise decoding and the reserved-key checks -/

theorem decodeAll_cons_error {α β : Type} {f : α → Except TErr β} {x : α} {xs : List α}
    {e : TErr} (h : f x = Except.error e) : decodeAll f (x :: xs) = Except.error e := by
  rw [decodeAll, h]

theorem decodeAll_cons_ok_error {α β : Type} {f : α → Except TErr β} {x : α} {xs : List α}
    {y : β} {e : TErr} (h1 : f x = Except.ok y) (h2 : decodeAll f xs = Except.error e) :
    decodeAll f (x :: xs) = Except.error e := by
  rw [decodeAll, h1, h2]

theorem decodeAll_cons_ok_ok {α β : Type} {f : α → Except TErr β} {x : α} {xs : List α}
    {y : β} {ys : List β} (h1 : f x = Except.ok y) (h2 : decodeAll f xs = Except.ok ys) :
    decodeAll f (x :: xs) = Except.ok (y :: ys) := by
  rw [decodeAll, h1, h2]

theorem decodeAll_ok_iff {α β : Type} (f : α → Except TErr β) (xs : List α) :
    (∃ ys, decodeAll f xs = Except.ok ys) ↔ ∀ x ∈ xs, ∃ y, f x = Except.ok y := by
  induction xs with
  | nil =>
    constructor
    · intro _ x hx
      cases hx
    · intro _
      exact ⟨[], rfl⟩
  | cons x xs ih =>
    constructor
    · rintro ⟨ys, hys⟩
      intro x' hx'
      cases hfx : f x with
      | error e =>
        rw [decodeAll_cons_error hfx] at hys
        cases hys
      | ok y =>
        cases hrest : decodeAll f xs with
        | error e =>
          rw [decodeAll_cons_ok_error hfx hrest] at hys
          cases hys
        | ok ys' =>
          rcases List.mem_cons.mp hx' with rfl | hmem
          · exact ⟨y, hfx⟩
          · exact ih.mp ⟨ys', hrest⟩ x' hmem
    · intro h
      obtain ⟨y, hy⟩ := h x (List.mem_cons_self x xs)
      obtain ⟨ys, hys⟩ := ih.mpr (fun x' hx' => h x' (List.mem_cons_of_mem x hx'))
      exact ⟨y :: ys, decodeAll_cons_ok_ok hy hys⟩

theorem decodeAll_forall₂ {α β : Type} (f : α → Except TErr β) (xs : List α) (ys : List β)
    (h : decodeAll f xs = Except.ok ys) :
    List.Forall₂ (fun x y => f x = Except.ok y) xs ys := by
  induction xs generalizing ys with
  | nil =>
    rw [decodeAll] at h
    injection h with h'
    subst h'
    exact List.Forall₂.nil
  | cons x xs ih =>
    cases hfx : f x with
    | error e =>
      rw [decodeAll_cons_error hfx] at h
      cases h
    | ok y =>
      cases hrest : decodeAll f xs with
      | error e =>
        rw [decodeAll_cons_ok_error hfx hrest] at h
        cases h
      | ok ys' =>
        rw [decodeAll_cons_ok_ok hfx hrest] at h
        injection h with h'
        subst h'
        exact List.Forall₂.cons hfx (ih ys' hrest)

theorem decodeAll_error_mem {α β : Type} (f : α → Except TErr β) (xs : List α) (e : TErr)
    (h : decodeAll f xs = Except.error e) : ∃ x ∈ xs, f x = Except.error e := by
  induction xs with
  | nil =>
    rw [decodeAll] at h
    cases h
  | cons x xs ih =>
    cases hfx : f x with
    | error e' =>
      rw [decodeAll_cons_error hfx] at h
      injection h with h'
      subst h'
      exact ⟨x, List.mem_cons_self x xs, hfx⟩
    | ok y =>
      cases hrest : decodeAll f xs with
      | error e' =>
        rw [decodeAll_cons_ok_error hfx hrest] at h
        injection h with h'
        subst h'
        obtain ⟨x', hx', hfx'⟩ := ih hrest
        exact ⟨x', List.mem_cons_of_mem x hx', hfx'⟩
      | ok ys =>
        rw [decodeAll_cons_ok_ok hfx hrest] at h
        cases h

theorem rkCheck_none_iff (rk : List Str) :
    rkCheck rk = none ↔ ∀ k ∈ rk, hasPfx systemTagPfx k = false := by
  induction rk with
  | nil => simp [rkCheck]
  | cons k ks ih =>
    rw [rkCheck]
    by_cases h : hasPfx systemTagPfx k = true
    · rw [if_pos h]
      refine iff_of_false (by simp) ?_
      intro hall
      have hk := hall k (List.mem_cons_self k ks)
      rw [hk] at h
      cases h
    · rw [if_neg h]
      have hk : hasPfx systemTagPfx k = false := Bool.eq_false_iff.mpr h
      rw [ih]
      constructor
      · intro hall k' hk'
        rcases List.mem_cons.mp hk' with rfl | hm
        · exact hk
        · exact hall k' hm
      · intro hall k' hk'
        exact hall k' (List.mem_cons_of_mem k hk')

theorem rkCheck_eq_policy (rk : List Str) (k : Str) (hk : k ∈ rk)
    (hpfx : hasPfx systemTagPfx k = true) : rkCheck rk = some TErr.policy := by
  induction rk with
  | nil => cases hk
  | cons k' ks ih =>
    rw [rkCheck]
    by_cases h : hasPfx systemTagPfx k' = true
    · rw [if_pos h]
    · rw [if_neg h]
      rcases List.mem_cons.mp hk with rfl | hm
      · exact absurd hpfx h
      · exact ih hm

theorem userTag_of_err {v : JValue} {e : TErr} {t' : Tag}
    (h : tagUnmarshalJSONSt { key := [], value := [] } v = (some e, t')) :
    userTagUnmarshalJSON v = Except.error e := by
  simp [userTagUnmarshalJSON, h]

theorem userTag_of_ok_pfx {v : JValue} {t : Tag}
    (h : tagUnmarshalJSONSt { key := [], value := [] } v = (none, t))
    (hp : hasPfx systemTagPfx t.key = true) :
    userTagUnmarshalJSON v = Except.error TErr.policy := by
  simp [userTagUnmarshalJSON, h, hp]

theorem userTag_of_ok_nopfx {v : JValue} {t : Tag}
    (h : tagUnmarshalJSONSt { key := [], value := [] } v = (none, t))
    (hp : hasPfx systemTagPfx t.key = false) :
    userTagUnmarshalJSON v = Except.ok t := by
  simp [userTagUnmarshalJSON, h, hp]

theorem userTag_err_policy {v : JValue} {e : TErr}
    (h1 : (tagUnmarshalJSONSt { key := [], value := [] } v).1 = none)
    (h2 : userTagUnmarshalJSON v = Except.error e) : e = TErr.policy := by
  cases hres : tagUnmarshalJSONSt { key := [], value := [] } v with
  | mk oerr t =>
    rw [hres] at h1
    simp only at h1
    subst h1
    by_cases hp : hasPfx systemTagPfx t.key = true
    · rw [userTag_of_ok_pfx hres hp] at h2
      injection h2 with h'
      exact h'.symm
    · rw [userTag_of_ok_nopfx hres (Bool.eq_false_iff.mpr hp)] at h2
      cases h2

theorem changeUnmarshal_eq_ok {add remove : List JValue} {rk : List Str}
    {a r : List UserTag}
    (ha : decodeAll userTagUnmarshalJSON add = Except.ok a)
    (hr : decodeAll userTagUnmarshalJSON remove = Except.ok r)
    (hrk : rkCheck rk = none) :
    changeUnmarshal add remove rk = Except.ok { addTags := a, removeTags := r, removeKey := rk } := by
  rw [changeUnmarshal, ha, hr, hrk]

/-! ### Claim C4 -/

/-- C4 counterexample: a Change body whose `add` list holds
`knit#transient:bogus` — a key carrying the reserved prefix — fails with the
transient-enum constraint error, not with the policy error the claim
promises; so "fails with a policy error whenever any key … starts with the
reserved prefix" is false as stated. -/
theorem changeUnmarshal_policy_cex :
    changeUnmarshal [JValue.str "knit#transient:bogus".data] [] []
      = Except.error TErr.badTransient
    ∧ TErr.badTransient ≠ TErr.policy := by
  exact ⟨rfl, by decide⟩

/-- C4 amended: decoding a Change body succeeds iff every `add`/`remove`
element decodes as a user tag (it parses as a Tag and its key lacks the
reserved prefix `knit#`) and no `remove_key` entry carries the prefix — so
any reserved key anywhere makes it fail and leaves no Change value; when
every element at least parses as a Tag, a reserved key anywhere yields
exactly the reserved-prefix policy error (an element that fails its own tag
validation, as in the counterexample, reports that tag error instead); on
success the Change holds exactly the decoded lists. -/
theorem changeUnmarshal_amended (add remove : List JValue) (rk : List Str) :
    ((∃ c, changeUnmarshal add remove rk = Except.ok c) ↔
      ((∀ v ∈ add, ∃ t, userTagUnmarshalJSON v = Except.ok t)
        ∧ (∀ v ∈ remove, ∃ t, userTagUnmarshalJSON v = Except.ok t)
        ∧ (∀ k ∈ rk, hasPfx systemTagPfx k = false)))
    ∧ ((∀ v ∈ add ++ remove, (tagUnmarshalJSONSt { key := [], value := [] } v).1 = none) →
        ((∃ v ∈ add ++ remove,
            hasPfx systemTagPfx ((tagUnmarshalJSONSt { key := [], value := [] } v).2).key = true)
          ∨ (∃ k ∈ rk, hasPfx systemTagPfx k = true)) →
        changeUnmarshal add remove rk = Except.error TErr.policy)
    ∧ (∀ c, changeUnmarshal add remove rk = Except.ok c →
        List.Forall₂ (fun v t => userTagUnmarshalJSON v = Except.ok t) add c.addTags
        ∧ List.Forall₂ (fun v t => userTagUnmarshalJSON v = Except.ok t) remove c.removeTags
        ∧ c.removeKey = rk) := by
  refine ⟨⟨?_, ?_⟩, ?_, ?_⟩
  · rintro ⟨c, hc⟩
    cases hA : decodeAll userTagUnmarshalJSON add with
    | error e => simp [changeUnmarshal, hA] at hc
    | ok a =>
      cases hR : decodeAll userTagUnmarshalJSON remove with
      | error e => simp [changeUnmarshal, hA, hR] at hc
      | ok r =>
        cases hK : rkCheck rk with
        | some e => simp [changeUnmarshal, hA, hR, hK] at hc
        | none =>
          exact ⟨(decodeAll_ok_iff _ add).mp ⟨a, hA⟩, (decodeAll_ok_iff _ remove).mp ⟨r, hR⟩,
            (rkCheck_none_iff rk).mp hK⟩
  · rintro ⟨h1, h2, h3⟩
    obtain ⟨a, hA⟩ := (decodeAll_ok_iff _ add).mpr h1
    obtain ⟨r, hR⟩ := (decodeAll_ok_iff _ remove).mpr h2
    exact ⟨_, changeUnmarshal_eq_ok hA hR ((rkCheck_none_iff rk).mpr h3)⟩
  · intro hstruct hsome
    have hstructA : ∀ v ∈ add, (tagUnmarshalJSONSt { key := [], value := [] } v).1 = none :=
      fun v hv => hstruct v (List.mem_append_left remove hv)
    have hstructR : ∀ v ∈ remove, (tagUnmarshalJSONSt { key := [], value := [] } v).1 = none :=
      fun v hv => hstruct v (List.mem_append_right add hv)
    cases hA : decodeAll userTagUnmarshalJSON add with
    | error e =>
      obtain ⟨v, hv, hfv⟩ := decodeAll_error_mem _ add e hA
      obtain rfl := userTag_err_policy (hstructA v hv) hfv
      rw [changeUnmarshal, hA]
    | ok a =>
      cases hR : decodeAll userTagUnmarshalJSON remove with
      | error e =>
        obtain ⟨v, hv, hfv⟩ := decodeAll_error_mem _ remove e hR
        obtain rfl := userTag_err_policy (hstructR v hv) hfv
        rw [changeUnmarshal, hA, hR]
      | ok r =>
        have hnopfx : ∀ v ∈ add ++ remove,
            hasPfx systemTagPfx ((tagUnmarshalJSONSt { key := [], value := [] } v).2).key
              = false := by
          intro v hv
          have hok : ∃ t, userTagUnmarshalJSON v = Except.ok t := by
            rcases List.mem_append.mp hv with hm | hm
            · exact (decodeAll_ok_iff _ add).mp ⟨a, hA⟩ v hm
            · exact (decodeAll_ok_iff _ remove).mp ⟨r, hR⟩ v hm
          obtain ⟨t, ht⟩ := hok
          have h1 := hstruct v hv
          cases hres : tagUnmarshalJSONSt { key := [], value := [] } v with
          | mk oerr t' =>
            rw [hres] at h1
            simp only at h1
            subst h1
            by_cases hp : hasPfx systemTagPfx t'.key = true
            · rw [userTag_of_ok_pfx hres hp] at ht
              cases ht
            · exact Bool.eq_false_iff.mpr hp
        rcases hsome with ⟨v, hv, hpfx⟩ | ⟨k, hk, hpfx⟩
        · rw [hnopfx v hv] at hpfx
          cases hpfx
        · rw [changeUnmarshal, hA, hR, rkCheck_eq_policy rk k hk hpfx]
  · intro c hc
    cases hA : decodeAll userTagUnmarshalJSON add with
    | error e => simp [changeUnmarshal, hA] at hc
    | ok a =>
      cases hR : decodeAll userTagUnmarshalJSON remove with
      | error e => simp [changeUnmarshal, hA, hR] at hc
      | ok r =>
        cases hK : rkCheck rk with
        | some e => simp [changeUnmarshal, hA, hR, hK] at hc
        | none =>
          rw [changeUnmarshal_eq_ok hA hR hK] at hc
          injection hc with hc'
          subst hc'
          exact ⟨decodeAll_forall₂ _ add a hA, decodeAll_forall₂ _ remove r hR, rfl⟩

/-! ### Claim C5 -/

/-- C5 counterexample: an AnnotationChange body carrying the reserved prefix
`knit#` both in an `add` element's key and in a `remove_key` entry decodes
successfully — no cross-cutting reserved-prefix rejection happens on this
path, so the claimed whole-value policy rejection is false. -/
theorem annotChangeUnmarshal_no_policy_cex :
    annotChangeUnmarshal [JValue.str "knit#id=x".data] [] ["knit#y".data]
      = Except.ok { add := [{ key := "knit#id".data, value := "x".data }],
                    remove := [], removeKey := ["knit#y".data] } := rfl

/-- C5 amended: decoding an AnnotationChange parses the `add` and `remove`
lists element-wise with the Annotation parser (each element must be a string
containing `=`; a malformed element is reported as its own parse error) and
takes `remove_key` verbatim; there is no reserved-prefix validation pass on
this type (only the tag Change has one), so values whose elements all parse
succeed even when keys carry `knit#`, and on success the value holds exactly
the decoded lists. -/
theorem annotChangeUnmarshal_amended (add remove : List JValue) (rk : List Str) :
    ((∃ c, annotChangeUnmarshal add remove rk = Except.ok c) ↔
      ((∀ v ∈ add, ∃ a, annotUnJSON v = Except.ok a)
        ∧ (∀ v ∈ remove, ∃ a, annotUnJSON v = Except.ok a)))
    ∧ (∀ c, annotChangeUnmarshal add remove rk = Except.ok c →
        List.Forall₂ (fun v a => annotUnJSON v = Except.ok a) add c.add
        ∧ List.Forall₂ (fun v a => annotUnJSON v = Except.ok a) remove c.remove
        ∧ c.removeKey = rk) := by
  constructor
  · constructor
    · rintro ⟨c, hc⟩
      cases hA : decodeAll annotUnJSON add with
      | error e => simp [annotChangeUnmarshal, hA] at hc
      | ok a =>
        cases hR : decodeAll annotUnJSON remove with
        | error e => simp [annotChangeUnmarshal, hA, hR] at hc
        | ok r =>
          exact ⟨(decodeAll_ok_iff _ add).mp ⟨a, hA⟩, (decodeAll_ok_iff _ remove).mp ⟨r, hR⟩⟩
    · rintro ⟨h1, h2⟩
      obtain ⟨a, hA⟩ := (decodeAll_ok_iff _ add).mpr h1
      obtain ⟨r, hR⟩ := (decodeAll_ok_iff _ remove).mpr h2
      exact ⟨_, by rw [annotChangeUnmarshal, hA, hR]⟩
  · intro c hc
    cases hA : decodeAll annotUnJSON add with
    | error e => simp [annotChangeUnmarshal, hA] at hc
    | ok a =>
      cases hR : decodeAll annotUnJSON remove with
      | error e => simp [annotChangeUnmarshal, hA, hR] at hc
      | ok r =>
        rw [annotChangeUnmarshal, hA, hR] at hc
        injection hc with hc'
        subst hc'
        exact ⟨decodeAll_forall₂ _ add a hA, decodeAll_forall₂ _ remove r hR, rfl⟩

/-! ### Claim C10 -/

/-- C10: `runs.Detail.Equal` never consults the embedded Summary's Exit
field: two run Details that agree on RunId, Status, UpdatedAt, Plan, the
unordered Inputs and Outputs, and the nil-aware Log compare equal whatever
their Exit fields hold. -/
theorem runDetailEqual_ignores_exit (d o : RunDetail)
    (h1 : d.summary.runId = o.summary.runId)
    (h2 : d.summary.status = o.summary.status)
    (h3 : d.summary.updatedAt = o.summary.updatedAt)
    (h4 : planSummaryEqual d.summary.plan o.summary.plan = true)
    (h5 : sliceEqualUnordered assignmentEqual d.inputs o.inputs = true)
    (h6 : sliceEqualUnordered assignmentEqual d.outputs o.outputs = true)
    (h7 : optEqualBy logSummaryEqual d.log o.log = true) :
    runDetailEqual d o = true := by
  simp [runDetailEqual, Bool.and_eq_true, h1, h2, h3, h4, h5, h6, h7]

/-- Witness for C10 at two concrete Details that differ exactly in Exit:
one finished with exit code 1, the other with no Exit at all. -/
theorem runDetailEqual_ignores_exit_witness :
    runDetailEqual
      { summary := { runId := "r".data, status := "done".data, updatedAt := 0,
                     exit := some { code := 1, message := [] },
                     plan := { planId := "p".data, image := none, name := [] } },
        inputs := [], outputs := [], log := none }
      { summary := { runId := "r".data, status := "done".data, updatedAt := 0,
                     exit := none,
                     plan := { planId := "p".data, image := none, name := [] } },
        inputs := [], outputs := [], log := none } = true
    ∧ (some { code := 1, message := [] } : Option Exit) ≠ none :=
  ⟨runDetailEqual_ignores_exit _ _ rfl rfl rfl (by decide) (by decide) (by decide) (by decide),
    by decide⟩

end Knit
